import Mathlib

/-
Verification of the `e_calculator` estimator (`CalculateE` in
`src/e_calculator/e_calculator.py`) against its natural-language
specification.  Machine floats are modelled as real numbers; the
process-wide pseudorandom source is modelled as a stream `u : ℕ → ℝ` of
unit draws in `[0, 1)`, with `np.random.uniform(lo, hi)` consuming one
stream entry.
-/

noncomputable section

/-- Error taxonomy of the estimator's input validation (spec section 7):
`invalidParameterRange` when `a_min <= 1` or `a_min >= a_max`,
`invalidTrialCount` when the trial count is not a positive integer. -/
inductive EstError where
  | invalidParameterRange
  | invalidTrialCount
  deriving DecidableEq

/-- A Python numeric argument: either an `int` or a `float`.  The trial-count
validation in `_check_inputs` tests both the value (`ntrials > 0`) and the
type (`isinstance(ntrials, int)`). -/
inductive PyNumber where
  | int (n : ℤ)
  | float (x : ℝ)

/-- The numeric value carried by a `PyNumber`. -/
def PyNumber.val : PyNumber → ℝ
  | .int n => n
  | .float x => x

/-- Whether the Python value is an `int` (`isinstance(_, int)`). -/
def PyNumber.isInt : PyNumber → Bool
  | .int _ => true
  | .float _ => false

/-- Loop-count view of a validated trial count.  After `_check_inputs`
succeeds the argument is a positive `int`, so the `float` case is
unreachable there. -/
def PyNumber.toTrials : PyNumber → ℕ
  | .int n => n.toNat
  | .float _ => 0

/-- Model of `np.random.uniform(lo, hi)` where `x` is the unit draw in
`[0, 1)` supplied by the pseudorandom stream: the result is
`lo + (hi - lo) * x`. -/
def npUniform (lo hi x : ℝ) : ℝ := lo + (hi - lo) * x

/-- `CalculateE.calculate_posterior` (e_calculator.py lines 69-84):
`Na = np.sqrt(np.log(a) / (2 * np.pi))`, then the product over the data of
`Na * a ** (-(x ** 2) / 2)`.  A pure function of the data and `a`. -/
def calculate_posterior (data : List ℝ) (a : ℝ) : ℝ :=
  let Na := Real.sqrt (Real.log a / (2 * Real.pi))
  (data.map (fun x => Na * a ^ (-(x ^ 2) / 2))).prod

/-- The formula of spec section 4.1, written from the spec's words to be
compared with the source's `calculate_posterior`: the product over all
observations `x` of the per-point factor `sqrt(ln a / (2 * pi)) * a ^ (-(x ^ 2) / 2)`. -/
def posterior_spec (data : List ℝ) (a : ℝ) : ℝ :=
  (data.map (fun x => Real.sqrt (Real.log a / (2 * Real.pi)) * a ^ (-(x ^ 2) / 2))).prod

/-- The running state of the `metropolis_hastings` trial loop: the current
sample, its posterior value, and the chain accumulated so far. -/
structure MHState where
  a_current : ℝ
  prob_a_current : ℝ
  chain : List ℝ

/-- One iteration of the `while trial_num <= ntrials` loop (lines 217-226):
evaluate the proposal's posterior, accept when the accept/reject draw
`uDraw` is at most `min 1 (prob_a_trial / prob_a_current)`, then append the
(possibly updated) current sample to the chain. -/
def mhStep (data : List ℝ) (aTrial uDraw : ℝ) (s : MHState) : MHState :=
  let prob_a_trial := calculate_posterior data aTrial
  let acceptance_prob := min 1 (prob_a_trial / s.prob_a_current)
  if uDraw ≤ acceptance_prob then
    { a_current := aTrial, prob_a_current := prob_a_trial, chain := s.chain ++ [aTrial] }
  else
    { s with chain := s.chain ++ [s.a_current] }

/-- The trial loop of `metropolis_hastings`: the trial starting at stream
position `k` consumes `u k` for the proposal (scaled to the fixed range
`[1, 10]`, line 217) and `u (k + 1)` for the accept/reject draw (line 221). -/
def mhLoop (data : List ℝ) (u : ℕ → ℝ) : ℕ → ℕ → MHState → MHState
  | _, 0, s => s
  | k, n + 1, s =>
      mhLoop data u (k + 2) n
        (mhStep data (npUniform 1 10 (u k)) (npUniform 0 1 (u (k + 1))) s)

/-- Python truthiness of `self.chain or [a_current]` (line 214): `None` and
the empty list are falsy and give the default, a non-empty list is returned
unchanged. -/
def pyOr (prior : Option (List ℝ)) (dflt : List ℝ) : List ℝ :=
  match prior with
  | none => dflt
  | some [] => dflt
  | some (c :: cs) => c :: cs

/-- Lines 210-215 of `metropolis_hastings`: a seed `a0` is drawn from
`[a_min, a_max]` and installed as `a_current` / `prob_a_current` on every
call, whether or not a prior chain exists; a truthy prior chain is kept
only as the list that new entries are appended to. -/
def mhInit (data : List ℝ) (u : ℕ → ℝ) (a_min a_max : ℝ)
    (prior : Option (List ℝ)) : MHState :=
  let a0 := npUniform a_min a_max (u 0)
  { a_current := a0
    prob_a_current := calculate_posterior data a0
    chain := pyOr prior [a0] }

/-- `CalculateE.metropolis_hastings(ntrials, a_min, a_max)` (lines 188-227),
with the pseudorandom source modelled as the unit-draw stream `u` and the
instance attributes `self.data` / `self.chain` passed explicitly. -/
def metropolis_hastings (data : List ℝ) (u : ℕ → ℝ) (ntrials : ℕ)
    (a_min a_max : ℝ) (prior : Option (List ℝ)) : List ℝ :=
  (mhLoop data u 1 ntrials (mhInit data u a_min a_max prior)).chain

/-- The remainder of `metropolis_hastings` once the seed value `a0` is
fixed: the arguments `a_min` / `a_max` do not occur in it. -/
def mhFromSeed (data : List ℝ) (u : ℕ → ℝ) (ntrials : ℕ) (a0 : ℝ)
    (prior : Option (List ℝ)) : List ℝ :=
  (mhLoop data u 1 ntrials
    { a_current := a0
      prob_a_current := calculate_posterior data a0
      chain := pyOr prior [a0] }).chain

/-- The state of a `CalculateE` instance: the observation set fixed at
construction (`self.data`), the construction-time default trial count
(`self.ntrials`), the grid artifacts (`self.a_array`, `self.posterior`),
the MCMC chain (`self.chain`), and the `self.ntrails` attribute first
created by a sampling call. -/
structure CalculateE where
  nsamples : ℕ
  ntrials : ℤ
  data : List ℝ
  a_array : Option (List ℝ)
  posterior : Option (List ℝ)
  chain : Option (List ℝ)
  ntrails : Option PyNumber

/-- `CalculateE._check_inputs` (lines 173-180): `assert a_min > 1`, then
`assert a_min < a_max`, then `assert (ntrials > 0) and isinstance(ntrials, int)`,
with the spec's error taxonomy naming the two failure kinds. -/
def _check_inputs (a_min a_max : ℝ) (ntrials : PyNumber) : Option EstError :=
  if 1 < a_min then
    if a_min < a_max then
      if 0 < ntrials.val ∧ ntrials.isInt = true then none
      else some .invalidTrialCount
    else some .invalidParameterRange
  else some .invalidParameterRange

/-- Model of `np.linspace(lo, hi, n)` (default `endpoint=True`): `n` evenly
spaced values over the closed interval, `lo + i * (hi - lo) / (n - 1)`;
`n = 1` yields `[lo]` alone. -/
def linspace (lo hi : ℝ) (n : ℕ) : List ℝ :=
  if n = 1 then [lo]
  else (List.range n).map (fun (i : ℕ) => lo + (hi - lo) * (i : ℝ) / ((n : ℝ) - 1))

/-- `CalculateE.uniformly_sample_space(a_min, a_max, ntrials)`
(lines 118-145).  A failed assertion raises before any mutation, modelled
by returning the input state with the error; after `_check_inputs`,
`ntrials > 0`, so the `if ntrials:` branch always stores
`self.ntrails = ntrials`. -/
def uniformly_sample_space (s : CalculateE) (a_min a_max : ℝ)
    (ntrials : PyNumber) : CalculateE × Option EstError :=
  match _check_inputs a_min a_max ntrials with
  | some e => (s, some e)
  | none =>
      let arr := linspace a_min a_max ntrials.toTrials
      ({ s with ntrails := some ntrials
                a_array := some arr
                posterior := some (arr.map (calculate_posterior s.data)) }, none)

/-- `CalculateE.run_mcmc(a_min, a_max, ntrials)` (lines 147-171): validate,
store `self.ntrails`, then `self.chain = self.metropolis_hastings(ntrials, a_min, a_max)`. -/
def run_mcmc (s : CalculateE) (u : ℕ → ℝ) (a_min a_max : ℝ)
    (ntrials : PyNumber) : CalculateE × Option EstError :=
  match _check_inputs a_min a_max ntrials with
  | some e => (s, some e)
  | none =>
      ({ s with ntrails := some ntrials
                chain := some (metropolis_hastings s.data u ntrials.toTrials
                  a_min a_max s.chain) }, none)

/-- `CalculateE.restart_chain` (lines 182-186): `self.chain = None`. -/
def restart_chain (s : CalculateE) : CalculateE := { s with chain := none }

/-- A freshly constructed estimator holding the single observation `0`. -/
def estFresh : CalculateE :=
  { nsamples := 1
    ntrials := 1000
    data := [0]
    a_array := none
    posterior := none
    chain := none
    ntrails := none }

/-- The same estimator carrying an existing chain `[5]`. -/
def estWithChain : CalculateE := { estFresh with chain := some [5] }

/-- Unit-draw stream that is `1/2` at index `2` (the first accept/reject
draw) and `0` elsewhere. -/
def uRej : ℕ → ℝ := fun n => if n = 2 then 1/2 else 0

/-- The all-zero unit-draw stream. -/
def uZero : ℕ → ℝ := fun _ => 0

/-- `mhStep` written as a single conditional, for rewriting. -/
lemma mhStep_eq (data : List ℝ) (aTrial uDraw : ℝ) (s : MHState) :
    mhStep data aTrial uDraw s =
      if uDraw ≤ min 1 (calculate_posterior data aTrial / s.prob_a_current) then
        { a_current := aTrial
          prob_a_current := calculate_posterior data aTrial
          chain := s.chain ++ [aTrial] }
      else { s with chain := s.chain ++ [s.a_current] } := rfl

lemma mhStep_accept (data : List ℝ) (aTrial uDraw : ℝ) (s : MHState)
    (h : uDraw ≤ min 1 (calculate_posterior data aTrial / s.prob_a_current)) :
    mhStep data aTrial uDraw s =
      { a_current := aTrial
        prob_a_current := calculate_posterior data aTrial
        chain := s.chain ++ [aTrial] } := by
  rw [mhStep_eq, if_pos h]

lemma mhStep_reject (data : List ℝ) (aTrial uDraw : ℝ) (s : MHState)
    (h : ¬ uDraw ≤ min 1 (calculate_posterior data aTrial / s.prob_a_current)) :
    mhStep data aTrial uDraw s = { s with chain := s.chain ++ [s.a_current] } := by
  rw [mhStep_eq, if_neg h]

lemma mhLoop_zero (data : List ℝ) (u : ℕ → ℝ) (k : ℕ) (s : MHState) :
    mhLoop data u k 0 s = s := rfl

lemma mhLoop_succ (data : List ℝ) (u : ℕ → ℝ) (k n : ℕ) (s : MHState) :
    mhLoop data u k (n + 1) s =
      mhLoop data u (k + 2) n
        (mhStep data (npUniform 1 10 (u k)) (npUniform 0 1 (u (k + 1))) s) := rfl

/-- With the single observation `0`, the posterior at `a = 1` is exactly
zero: `Na = sqrt(log 1 / (2 * pi)) = 0`. -/
lemma calculate_posterior_one : calculate_posterior [(0 : ℝ)] 1 = 0 := by
  simp [calculate_posterior, Real.log_one]

/-- When the proposal's posterior is zero, the acceptance probability is
`min 1 (0 / p) = 0`, whatever `prob_a_current` is. -/
lemma acceptance_of_zero (p : ℝ) : min 1 ((0 : ℝ) / p) = 0 := by
  rw [zero_div]
  exact min_eq_right zero_le_one

lemma mhStep_chain_length (data : List ℝ) (aTrial uDraw : ℝ) (s : MHState) :
    (mhStep data aTrial uDraw s).chain.length = s.chain.length + 1 := by
  rw [mhStep_eq]
  split <;> simp

lemma mhLoop_chain_length (data : List ℝ) (u : ℕ → ℝ) :
    ∀ (n k : ℕ) (s : MHState),
      (mhLoop data u k n s).chain.length = s.chain.length + n := by
  intro n
  induction n with
  | zero => intro k s; rfl
  | succ n ih =>
      intro k s
      rw [mhLoop_succ, ih, mhStep_chain_length]
      omega

lemma pyOr_none (dflt : List ℝ) : pyOr none dflt = dflt := rfl

lemma pyOr_some_ne_nil (c : List ℝ) (h : c ≠ []) (dflt : List ℝ) :
    pyOr (some c) dflt = c := by
  cases c with
  | nil => exact absurd rfl h
  | cons x xs => rfl

lemma metropolis_hastings_length_fresh (data : List ℝ) (u : ℕ → ℝ) (n : ℕ)
    (a_min a_max : ℝ) :
    (metropolis_hastings data u n a_min a_max none).length = n + 1 := by
  rw [metropolis_hastings, mhLoop_chain_length]
  simp [mhInit, pyOr]
  omega

lemma metropolis_hastings_length_resume (data : List ℝ) (u : ℕ → ℝ) (n : ℕ)
    (a_min a_max : ℝ) (c : List ℝ) (hc : c ≠ []) :
    (metropolis_hastings data u n a_min a_max (some c)).length = c.length + n := by
  rw [metropolis_hastings, mhLoop_chain_length]
  simp [mhInit, pyOr_some_ne_nil c hc]

lemma _check_inputs_ok (a_min a_max : ℝ) (nt : PyNumber)
    (h1 : 1 < a_min) (h2 : a_min < a_max) (h3 : 0 < nt.val)
    (h4 : nt.isInt = true) : _check_inputs a_min a_max nt = none := by
  rw [_check_inputs, if_pos h1, if_pos h2, if_pos ⟨h3, h4⟩]

lemma _check_inputs_int_ok (a_min a_max : ℝ) (n : ℕ)
    (h1 : 1 < a_min) (h2 : a_min < a_max) (hn : 0 < n) :
    _check_inputs a_min a_max (.int n) = none := by
  refine _check_inputs_ok a_min a_max _ h1 h2 ?_ rfl
  show (0 : ℝ) < ((n : ℤ) : ℝ)
  exact_mod_cast hn

lemma toTrials_int (n : ℕ) : (PyNumber.int n).toTrials = n := by
  simp [PyNumber.toTrials]

lemma run_mcmc_int_ok (s : CalculateE) (u : ℕ → ℝ) (a_min a_max : ℝ) (n : ℕ)
    (h1 : 1 < a_min) (h2 : a_min < a_max) (hn : 0 < n) :
    run_mcmc s u a_min a_max (.int n) =
      ({ s with ntrails := some (.int n)
                chain := some (metropolis_hastings s.data u n a_min a_max s.chain) },
       none) := by
  rw [run_mcmc, _check_inputs_int_ok a_min a_max n h1 h2 hn]
  rw [toTrials_int]

lemma uniformly_sample_space_int_ok (s : CalculateE) (a_min a_max : ℝ) (n : ℕ)
    (h1 : 1 < a_min) (h2 : a_min < a_max) (hn : 0 < n) :
    uniformly_sample_space s a_min a_max (.int n) =
      ({ s with ntrails := some (.int n)
                a_array := some (linspace a_min a_max n)
                posterior := some ((linspace a_min a_max n).map
                  (calculate_posterior s.data)) }, none) := by
  rw [uniformly_sample_space, _check_inputs_int_ok a_min a_max n h1 h2 hn]
  rw [toTrials_int]

lemma mhLoop_one (data : List ℝ) (u : ℕ → ℝ) (k : ℕ) (s : MHState) :
    mhLoop data u k 1 s =
      mhStep data (npUniform 1 10 (u k)) (npUniform 0 1 (u (k + 1))) s := rfl

lemma mhLoop_two (data : List ℝ) (u : ℕ → ℝ) (k : ℕ) (s : MHState) :
    mhLoop data u k 2 s =
      mhStep data (npUniform 1 10 (u (k + 2))) (npUniform 0 1 (u (k + 3)))
        (mhStep data (npUniform 1 10 (u k)) (npUniform 0 1 (u (k + 1))) s) := rfl

lemma npUniform_at_zero (lo hi : ℝ) : npUniform lo hi 0 = lo := by
  rw [npUniform]; ring

/-- Behaviour of a one-trial `metropolis_hastings` run under the stream
`uRej`: the seed is `a_min`, the sole proposal is `a = 1` whose posterior
is zero, the accept/reject draw `1/2` rejects it, and the appended entry is
therefore the freshly drawn seed `a_min` — whatever prior chain was
supplied. -/
lemma mh_uRej (a_min a_max : ℝ) (prior : Option (List ℝ)) :
    metropolis_hastings [0] uRej 1 a_min a_max prior =
      pyOr prior [a_min] ++ [a_min] := by
  have ha0 : npUniform a_min a_max (uRej 0) = a_min := npUniform_at_zero a_min a_max
  have haT : npUniform 1 10 (uRej 1) = 1 := by simp [npUniform, uRej]
  have haU : npUniform 0 1 (uRej 2) = 1/2 := by simp [npUniform, uRej]
  have hinit : mhInit [0] uRej a_min a_max prior =
      ⟨a_min, calculate_posterior [0] a_min, pyOr prior [a_min]⟩ := by
    simp only [mhInit]
    rw [ha0]
  have hrej : mhStep [0] (1 : ℝ) (1/2 : ℝ)
      ⟨a_min, calculate_posterior [0] a_min, pyOr prior [a_min]⟩ =
      ⟨a_min, calculate_posterior [0] a_min, pyOr prior [a_min] ++ [a_min]⟩ := by
    rw [mhStep_reject]
    rw [calculate_posterior_one, acceptance_of_zero]
    norm_num
  show (mhLoop [0] uRej 1 1 (mhInit [0] uRej a_min a_max prior)).chain = _
  rw [hinit, mhLoop_one]
  show (mhStep [0] (npUniform 1 10 (uRej 1)) (npUniform 0 1 (uRej 2))
    (⟨a_min, calculate_posterior [0] a_min, pyOr prior [a_min]⟩ : MHState)).chain = _
  rw [haT, haU, hrej]

/-- Behaviour of a two-trial run under the all-zero stream: the seed is
`2`; both proposals are `a = 1`, whose posterior is exactly zero; both are
accepted (`u = 0 <= min 1 (0 / p) = 0`), so from trial 2 on the acceptance
ratio is computed with `prob_a_current = 0`, and the loop still runs to
completion and returns the chain. -/
lemma mh_uZero_two : metropolis_hastings [0] uZero 2 2 3 none = [2, 1, 1] := by
  have hA : ∀ k, npUniform 1 10 (uZero k) = 1 := fun k => by
    simp [npUniform, uZero]
  have hU : ∀ k, npUniform 0 1 (uZero k) = 0 := fun k => by
    simp [npUniform, uZero]
  have hseed : npUniform 2 3 (uZero 0) = 2 := npUniform_at_zero 2 3
  have hinit : mhInit [0] uZero 2 3 none =
      ⟨2, calculate_posterior [0] 2, [2]⟩ := by
    simp only [mhInit]
    rw [hseed]
    rfl
  have hstep1 : mhStep [0] (1 : ℝ) (0 : ℝ) ⟨2, calculate_posterior [0] 2, [2]⟩ =
      ⟨1, calculate_posterior [0] 1, [2, 1]⟩ := by
    rw [mhStep_accept]
    · rfl
    · rw [calculate_posterior_one, acceptance_of_zero]
  have hstep2 : mhStep [0] (1 : ℝ) (0 : ℝ) ⟨1, calculate_posterior [0] 1, [2, 1]⟩ =
      ⟨1, calculate_posterior [0] 1, [2, 1, 1]⟩ := by
    rw [mhStep_accept]
    · rfl
    · rw [calculate_posterior_one, acceptance_of_zero]
  show (mhLoop [0] uZero 1 2 (mhInit [0] uZero 2 3 none)).chain = _
  rw [hinit, mhLoop_two]
  simp only [hA, hU]
  rw [hstep1, hstep2]

/-- The transition relation of spec section 8.5: a chain entry either
repeats its predecessor or is a proposal value from the fixed range
`[1, 10)`. -/
def stepRel (x y : ℝ) : Prop := y = x ∨ (1 ≤ y ∧ y < 10)

/-- Loop invariant for a fresh `metropolis_hastings` run seeded at `a0`:
the current sample is the seed or a proposal from `[1, 10)`, the chain ends
with the current sample, consecutive entries satisfy `stepRel`, and every
entry is the seed or lies in `[1, 10)`. -/
def chainInv (a0 : ℝ) (s : MHState) : Prop :=
  (s.a_current = a0 ∨ (1 ≤ s.a_current ∧ s.a_current < 10)) ∧
  s.chain.getLast? = some s.a_current ∧
  s.chain.Chain' stepRel ∧
  ∀ x ∈ s.chain, x = a0 ∨ (1 ≤ x ∧ x < 10)

lemma getLast?_snoc (l : List ℝ) (y : ℝ) : (l ++ [y]).getLast? = some y := by
  simp

lemma chain'_snoc {l : List ℝ} {x y : ℝ} (hl : l.Chain' stepRel)
    (hlast : l.getLast? = some x) (hR : stepRel x y) :
    (l ++ [y]).Chain' stepRel := by
  rw [List.chain'_append]
  refine ⟨hl, List.chain'_singleton y, ?_⟩
  intro a ha b hb
  rw [hlast] at ha
  simp only [Option.mem_def, Option.some.injEq] at ha
  simp only [List.head?_cons, Option.mem_def, Option.some.injEq] at hb
  rw [ha, hb] at hR
  exact hR

lemma chainInv_step (a0 : ℝ) (data : List ℝ) (aTrial uDraw : ℝ) (s : MHState)
    (ha : 1 ≤ aTrial ∧ aTrial < 10) (h : chainInv a0 s) :
    chainInv a0 (mhStep data aTrial uDraw s) := by
  obtain ⟨hcur, hlast, hchain, hmem⟩ := h
  rw [mhStep_eq]
  split
  · refine ⟨Or.inr ha, getLast?_snoc _ _, chain'_snoc hchain hlast (Or.inr ha), ?_⟩
    intro x hx
    rw [List.mem_append] at hx
    rcases hx with hx | hx
    · exact hmem x hx
    · rw [List.mem_singleton] at hx
      exact Or.inr (hx ▸ ha)
  · refine ⟨hcur, getLast?_snoc _ _, chain'_snoc hchain hlast (Or.inl rfl), ?_⟩
    intro x hx
    rw [List.mem_append] at hx
    rcases hx with hx | hx
    · exact hmem x hx
    · rw [List.mem_singleton] at hx
      exact hx ▸ hcur

lemma chainInv_loop (a0 : ℝ) (data : List ℝ) (u : ℕ → ℝ)
    (hu : ∀ i, 0 ≤ u i ∧ u i < 1) :
    ∀ (n k : ℕ) (s : MHState), chainInv a0 s → chainInv a0 (mhLoop data u k n s) := by
  intro n
  induction n with
  | zero => intro k s h; exact h
  | succ n ih =>
      intro k s h
      rw [mhLoop_succ]
      apply ih
      apply chainInv_step _ _ _ _ _ _ h
      obtain ⟨h0, h1⟩ := hu k
      constructor
      · rw [npUniform]; nlinarith
      · rw [npUniform]; nlinarith

lemma seed_bounds (a_min a_max x : ℝ) (h2 : a_min < a_max)
    (hx0 : 0 ≤ x) (hx1 : x < 1) :
    a_min ≤ npUniform a_min a_max x ∧ npUniform a_min a_max x < a_max := by
  rw [npUniform]
  constructor <;> nlinarith

lemma linspace_len (lo hi : ℝ) (n : ℕ) : (linspace lo hi n).length = n := by
  rw [linspace]
  split <;> simp_all

lemma linspace_getD (lo hi : ℝ) (n i : ℕ) (hn : 2 ≤ n) (hin : i < n) :
    (linspace lo hi n).getD i 0 = lo + (hi - lo) * (i : ℝ) / ((n : ℝ) - 1) := by
  rw [linspace, if_neg (by omega)]
  rw [List.getD_eq_getElem?_getD, List.getElem?_map, List.getElem?_range hin]
  rfl

/-- C1.  The claim says a `run_mcmc` on an estimator with a non-empty chain
resumes from the chain's last entry as `a_current` without drawing a fresh
seed.  The code instead draws `a0 = uniform(a_min, a_max)` and enters the
loop with `a_current = a0` on every call: with prior chain `[5]`, ranges
`[2, 3]` and a stream whose seed draw is `0`, the run starts from the
fresh seed `2`, and the rejected first trial appends `2` — not the claimed
`5` — to the chain. -/
theorem C1_resume_reseeds :
    (mhInit [0] uRej 2 3 (some [5])).a_current = 2 ∧ ((2 : ℝ) ≠ 5) ∧
    metropolis_hastings [0] uRej 1 2 3 (some [5]) = [5, 2] := by
  refine ⟨?_, by norm_num, ?_⟩
  · show npUniform 2 3 (uRej 0) = 2
    exact npUniform_at_zero 2 3
  · rw [mh_uRej]
    rfl

/-- C2.  Chain length law: a fresh `run_mcmc` with `n` trials yields a
chain of length `n + 1`; a second run with `m` trials (no restart) grows it
to `(n + 1) + m`; `restart_chain` followed by an `n`-trial run yields
`n + 1` whatever the prior chain state was. -/
theorem C2_chain_length_law (s s' : CalculateE) (u1 u2 u3 : ℕ → ℝ)
    (a_min a_max : ℝ) (n m : ℕ) (h1 : 1 < a_min) (h2 : a_min < a_max)
    (hn : 0 < n) (hm : 0 < m) (hc : s.chain = none) :
    ∃ c1 c2 c3 : List ℝ,
      (run_mcmc s u1 a_min a_max (.int n)).1.chain = some c1 ∧
      c1.length = n + 1 ∧
      (run_mcmc (run_mcmc s u1 a_min a_max (.int n)).1 u2 a_min a_max
          (.int m)).1.chain = some c2 ∧
      c2.length = (n + 1) + m ∧
      (run_mcmc (restart_chain s') u3 a_min a_max (.int n)).1.chain = some c3 ∧
      c3.length = n + 1 := by
  have hlen1 : (metropolis_hastings s.data u1 n a_min a_max none).length = n + 1 :=
    metropolis_hastings_length_fresh s.data u1 n a_min a_max
  have hne : metropolis_hastings s.data u1 n a_min a_max none ≠ [] := by
    intro hnil
    rw [hnil] at hlen1
    simp at hlen1
  refine ⟨metropolis_hastings s.data u1 n a_min a_max none,
          metropolis_hastings s.data u2 m a_min a_max
            (some (metropolis_hastings s.data u1 n a_min a_max none)),
          metropolis_hastings s'.data u3 n a_min a_max none,
          ?_, hlen1, ?_, ?_, ?_, metropolis_hastings_length_fresh s'.data u3 n a_min a_max⟩
  · rw [run_mcmc_int_ok s u1 a_min a_max n h1 h2 hn, hc]
  · rw [run_mcmc_int_ok s u1 a_min a_max n h1 h2 hn,
        run_mcmc_int_ok _ u2 a_min a_max m h1 h2 hm, hc]
  · rw [metropolis_hastings_length_resume s.data u2 m a_min a_max _ hne, hlen1]
  · rw [run_mcmc_int_ok _ u3 a_min a_max n h1 h2 hn]
    show some (metropolis_hastings s'.data u3 n a_min a_max none) = _
    rfl

/-- Witness for C2 at a concrete estimator: `n = m = 1`, ranges `[2, 3]`,
the all-zero stream, prior state with chain `[5]` for the restart leg. -/
theorem C2_chain_length_law_witness :
    ∃ c1 c2 c3 : List ℝ,
      (run_mcmc estFresh uZero 2 3 (.int 1)).1.chain = some c1 ∧
      c1.length = 1 + 1 ∧
      (run_mcmc (run_mcmc estFresh uZero 2 3 (.int 1)).1 uZero 2 3
          (.int 1)).1.chain = some c2 ∧
      c2.length = (1 + 1) + 1 ∧
      (run_mcmc (restart_chain estWithChain) uZero 2 3 (.int 1)).1.chain = some c3 ∧
      c3.length = 1 + 1 :=
  C2_chain_length_law estFresh estWithChain uZero uZero uZero 2 3 1 1
    (by norm_num) (by norm_num) (by norm_num) (by norm_num) rfl

/-- C3.  The claim says a run whose `p_current` is exactly zero at the
acceptance-ratio computation raises `DegenerateLikelihood`.  No such error
(or any raise) exists in `metropolis_hastings`: in this two-trial run the
first proposal `a = 1` has posterior exactly `0` and is accepted, so the
second trial computes its acceptance ratio with `prob_a_current = 0` — and
the run still returns the chain `[2, 1, 1]` normally. -/
theorem C3_zero_posterior_no_error :
    metropolis_hastings [0] uZero 2 2 3 none = [2, 1, 1] ∧
    calculate_posterior [(0 : ℝ)] 1 = 0 :=
  ⟨mh_uZero_two, calculate_posterior_one⟩

/-- C4, counterexample.  With ranges `[12, 20]` the seed is `12`; a
rejected first trial appends `12`, so after one executed trial the chain
holds an entry outside `[1, 10]` that is not the seed entry (resumed run:
`[5, 12]`, where `12` neither repeats `5` nor lies in `[1, 10]`; fresh
run: `[12, 12]`, whose second entry is outside `[1, 10]`). -/
theorem C4_cex :
    (run_mcmc estWithChain uRej 12 20 (.int 1)).1.chain = some [5, 12] ∧
    (run_mcmc estFresh uRej 12 20 (.int 1)).1.chain = some [12, 12] ∧
    ¬ ((12 : ℝ) ≤ 10) ∧ (12 : ℝ) ≠ 5 := by
  refine ⟨?_, ?_, by norm_num, by norm_num⟩
  · have hok := run_mcmc_int_ok estWithChain uRej 12 20 1 (by norm_num)
      (by norm_num) (by norm_num)
    rw [show ((1 : ℕ) : ℤ) = (1 : ℤ) from rfl] at hok
    rw [hok]
    show some (metropolis_hastings [0] uRej 1 12 20 (some [5])) = _
    rw [mh_uRej]
    rfl
  · have hok := run_mcmc_int_ok estFresh uRej 12 20 1 (by norm_num)
      (by norm_num) (by norm_num)
    rw [show ((1 : ℕ) : ℤ) = (1 : ℤ) from rfl] at hok
    rw [hok]
    show some (metropolis_hastings [0] uRej 1 12 20 none) = _
    rw [mh_uRej]
    rfl

/-- C4, amended.  For a fresh run (`chain = None`) with valid ranges and a
unit-draw stream in `[0, 1)`: every entry after the first repeats its
predecessor or is a proposal value in `[1, 10)`; every entry is either the
run's seed value (possibly repeated after rejections) or lies in `[1, 10)`;
and the seed lies in `[a_min, a_max)`. -/
theorem C4_transitions_amended (s : CalculateE) (u : ℕ → ℝ) (a_min a_max : ℝ)
    (n : ℕ) (hu : ∀ i, 0 ≤ u i ∧ u i < 1) (h1 : 1 < a_min) (h2 : a_min < a_max)
    (hn : 0 < n) (hc : s.chain = none) :
    (run_mcmc s u a_min a_max (.int n)).1.chain
        = some (metropolis_hastings s.data u n a_min a_max none) ∧
    (metropolis_hastings s.data u n a_min a_max none).Chain' stepRel ∧
    (∀ x ∈ metropolis_hastings s.data u n a_min a_max none,
        x = npUniform a_min a_max (u 0) ∨ (1 ≤ x ∧ x < 10)) ∧
    a_min ≤ npUniform a_min a_max (u 0) ∧ npUniform a_min a_max (u 0) < a_max := by
  have hinv : chainInv (npUniform a_min a_max (u 0))
      (mhInit s.data u a_min a_max none) := by
    refine ⟨Or.inl rfl, ?_, ?_, ?_⟩
    · rfl
    · exact List.chain'_singleton _
    · intro x hx
      rw [show mhInit s.data u a_min a_max none =
        ⟨npUniform a_min a_max (u 0),
         calculate_posterior s.data (npUniform a_min a_max (u 0)),
         [npUniform a_min a_max (u 0)]⟩ from rfl] at hx
      rw [List.mem_singleton] at hx
      exact Or.inl hx
  have hloop := chainInv_loop (npUniform a_min a_max (u 0)) s.data u hu n 1
    (mhInit s.data u a_min a_max none) hinv
  obtain ⟨-, -, hchain, hmem⟩ := hloop
  refine ⟨?_, hchain, hmem,
    seed_bounds a_min a_max (u 0) h2 (hu 0).1 (hu 0).2⟩
  rw [run_mcmc_int_ok s u a_min a_max n h1 h2 hn, hc]

/-- Witness for C4's amended theorem: fresh estimator, ranges `[2, 3]`,
one trial, all-zero stream. -/
theorem C4_transitions_amended_witness :
    (run_mcmc estFresh uZero 2 3 (.int 1)).1.chain
        = some (metropolis_hastings [0] uZero 1 2 3 none) ∧
    (metropolis_hastings [0] uZero 1 2 3 none).Chain' stepRel ∧
    (∀ x ∈ metropolis_hastings [0] uZero 1 2 3 none,
        x = npUniform 2 3 (uZero 0) ∨ (1 ≤ x ∧ x < 10)) ∧
    (2 : ℝ) ≤ npUniform 2 3 (uZero 0) ∧ npUniform 2 3 (uZero 0) < 3 :=
  C4_transitions_amended estFresh uZero 2 3 1
    (fun _ => ⟨le_refl 0, by norm_num [uZero]⟩)
    (by norm_num) (by norm_num) (by norm_num) rfl

/-- C5.  `calculate_posterior` returns the product over all observations
`x` of `sqrt(ln a / (2π)) * a^(-x²/2)`; as a function of the data and `a`
alone it has no effect on any estimator state (purity holds by
construction in this embedding, where it is a plain function). -/
theorem C5_posterior_formula (data : List ℝ) (a : ℝ) (h1 : 1 < a)
    (hne : data ≠ []) : calculate_posterior data a = posterior_spec data a := rfl

/-- Witness for C5 at `a = 2`, data `[0]`. -/
theorem C5_posterior_formula_witness :
    calculate_posterior [(0 : ℝ)] 2 = posterior_spec [(0 : ℝ)] 2 :=
  C5_posterior_formula [(0 : ℝ)] 2 one_lt_two (List.cons_ne_nil 0 [])

/-- C6, counterexample.  The claim says every posterior evaluation at
`a ≤ 1` is rejected with an error; but `calculate_posterior` itself has no
domain check: at `a = 1` (which satisfies `a ≤ 1`) it evaluates normally
and returns the number `0` (`Na = sqrt(log 1 / (2π)) = 0`). -/
theorem C6_cex : (1 : ℝ) ≤ 1 ∧ calculate_posterior [(0 : ℝ)] 1 = 0 :=
  ⟨le_refl 1, calculate_posterior_one⟩

/-- C6, amended.  For `a > 1` and a non-empty observation set the
posterior is non-negative; and `a_min ≤ 1` is rejected with
`InvalidParameterRange` by the validated public operations (grid sampling
and MCMC) before any posterior evaluation — but `calculate_posterior`
itself performs no domain check. -/
theorem C6_amended :
    (∀ (data : List ℝ) (a : ℝ), 1 < a → data ≠ [] →
      0 ≤ calculate_posterior data a) ∧
    (∀ (s : CalculateE) (u : ℕ → ℝ) (a_min a_max : ℝ) (nt : PyNumber),
      a_min ≤ 1 →
      uniformly_sample_space s a_min a_max nt
          = (s, some EstError.invalidParameterRange) ∧
      run_mcmc s u a_min a_max nt = (s, some EstError.invalidParameterRange)) := by
  constructor
  · intro data a ha _
    show 0 ≤ (data.map
      (fun x => Real.sqrt (Real.log a / (2 * Real.pi)) * a ^ (-(x ^ 2) / 2))).prod
    apply List.prod_nonneg
    intro b hb
    rw [List.mem_map] at hb
    obtain ⟨x, -, rfl⟩ := hb
    exact mul_nonneg (Real.sqrt_nonneg _)
      (le_of_lt (Real.rpow_pos_of_pos (lt_trans one_pos ha) _))
  · intro s u a_min a_max nt h
    have hck : _check_inputs a_min a_max nt = some .invalidParameterRange := by
      rw [_check_inputs, if_neg (not_lt.mpr h)]
    constructor
    · rw [uniformly_sample_space, hck]
    · rw [run_mcmc, hck]

/-- Witness for C6's amended theorem: `a = 2` with data `[0]`, plus the
spec's validation scenario `a_min = 0.5`. -/
theorem C6_amended_witness :
    0 ≤ calculate_posterior [(0 : ℝ)] 2 ∧
    uniformly_sample_space estFresh (1/2) 5 (.int 10)
        = (estFresh, some EstError.invalidParameterRange) ∧
    run_mcmc estFresh uZero (1/2) 5 (.int 10)
        = (estFresh, some EstError.invalidParameterRange) :=
  ⟨C6_amended.1 [(0 : ℝ)] 2 one_lt_two (List.cons_ne_nil 0 []),
   (C6_amended.2 estFresh uZero (1/2) 5 (.int 10) (by norm_num)).1,
   (C6_amended.2 estFresh uZero (1/2) 5 (.int 10) (by norm_num)).2⟩

/-- C7, counterexample.  The claim quantifies over every positive
`n_points`, but `np.linspace` with a single point returns `[a_min]` alone:
with `a_min = 2`, `a_max = 3`, `n_points = 1` the stored grid is `[2]`,
whose last entry is `2 ≠ 3 = a_max`, so the grid does not span
`[a_min, a_max]`. -/
theorem C7_cex :
    (uniformly_sample_space estFresh 2 3 (.int 1)).1.a_array = some [(2 : ℝ)] ∧
    (2 : ℝ) ≠ 3 := by
  refine ⟨?_, by norm_num⟩
  have hok := uniformly_sample_space_int_ok estFresh 2 3 1 (by norm_num)
    (by norm_num) (by norm_num)
  rw [show ((1 : ℕ) : ℤ) = (1 : ℤ) from rfl] at hok
  rw [hok]
  show some (linspace 2 3 1) = _
  rw [linspace, if_pos rfl]

/-- C7, amended.  For `n_points ≥ 2` (and valid ranges) the stored grid is
`linspace a_min a_max n`: it has exactly `n` entries, starts at `a_min`,
ends at `a_max`, is strictly increasing with constant spacing
`(a_max - a_min) / (n - 1)`, and the stored posterior sequence is its
pointwise, in-order image under `calculate_posterior`. -/
theorem C7_grid_amended (s : CalculateE) (a_min a_max : ℝ) (n : ℕ)
    (h1 : 1 < a_min) (h2 : a_min < a_max) (hn : 2 ≤ n) :
    (uniformly_sample_space s a_min a_max (.int n)).2 = none ∧
    (uniformly_sample_space s a_min a_max (.int n)).1.a_array
        = some (linspace a_min a_max n) ∧
    (uniformly_sample_space s a_min a_max (.int n)).1.posterior
        = some ((linspace a_min a_max n).map (calculate_posterior s.data)) ∧
    (linspace a_min a_max n).length = n ∧
    (linspace a_min a_max n).getD 0 0 = a_min ∧
    (linspace a_min a_max n).getD (n - 1) 0 = a_max ∧
    ∀ i, i + 1 < n →
      (linspace a_min a_max n).getD i 0
          < (linspace a_min a_max n).getD (i + 1) 0 ∧
      (linspace a_min a_max n).getD (i + 1) 0
          - (linspace a_min a_max n).getD i 0
          = (a_max - a_min) / ((n : ℝ) - 1) := by
  have hok := uniformly_sample_space_int_ok s a_min a_max n h1 h2 (by omega)
  have h2r : (2 : ℝ) ≤ (n : ℝ) := by exact_mod_cast hn
  have hpos : (0 : ℝ) < (n : ℝ) - 1 := by linarith
  have hne : (n : ℝ) - 1 ≠ 0 := ne_of_gt hpos
  refine ⟨?_, ?_, ?_, linspace_len a_min a_max n, ?_, ?_, ?_⟩
  · rw [hok]
  · rw [hok]
  · rw [hok]
  · rw [linspace_getD a_min a_max n 0 hn (by omega)]
    norm_num
  · rw [linspace_getD a_min a_max n (n - 1) hn (by omega)]
    rw [Nat.cast_sub (by omega)]
    push_cast
    field_simp
  · intro i hilt
    have key : (linspace a_min a_max n).getD (i + 1) 0
        - (linspace a_min a_max n).getD i 0
        = (a_max - a_min) / ((n : ℝ) - 1) := by
      rw [linspace_getD a_min a_max n i hn (by omega),
          linspace_getD a_min a_max n (i + 1) hn hilt]
      push_cast
      field_simp
      ring
    have hstep : (0 : ℝ) < (a_max - a_min) / ((n : ℝ) - 1) :=
      div_pos (by linarith) hpos
    exact ⟨by linarith, key⟩

/-- Witness for C7's amended theorem: `n = 3`, ranges `[2, 4]`. -/
theorem C7_grid_amended_witness :
    (uniformly_sample_space estFresh 2 4 (.int 3)).2 = none ∧
    (uniformly_sample_space estFresh 2 4 (.int 3)).1.a_array
        = some (linspace 2 4 3) ∧
    (uniformly_sample_space estFresh 2 4 (.int 3)).1.posterior
        = some ((linspace 2 4 3).map (calculate_posterior [0])) ∧
    (linspace 2 4 3).length = 3 ∧
    (linspace 2 4 3).getD 0 0 = 2 ∧
    (linspace 2 4 3).getD (3 - 1) 0 = 4 ∧
    ∀ i, i + 1 < 3 →
      (linspace 2 4 3).getD i 0 < (linspace 2 4 3).getD (i + 1) 0 ∧
      (linspace 2 4 3).getD (i + 1) 0 - (linspace 2 4 3).getD i 0
          = ((4 : ℝ) - 2) / ((3 : ℝ) - 1) :=
  C7_grid_amended estFresh 2 4 3 (by norm_num) (by norm_num) (by norm_num)

/-- C8.  Any `uniformly_sample_space` or `run_mcmc` call with
`a_min ≤ 1`, `a_min ≥ a_max`, or a trial count that is not a positive
`int` fails its validation at the start of the operation: the result is an
error and the returned estimator state is the unchanged input state (no
grid or chain mutation). -/
theorem C8_validation_rejects (s : CalculateE) (u : ℕ → ℝ) (a_min a_max : ℝ)
    (nt : PyNumber)
    (h : a_min ≤ 1 ∨ a_max ≤ a_min ∨ ¬ (0 < nt.val ∧ nt.isInt = true)) :
    (∃ e, uniformly_sample_space s a_min a_max nt = (s, some e)) ∧
    (∃ e, run_mcmc s u a_min a_max nt = (s, some e)) := by
  have hck : ∃ e, _check_inputs a_min a_max nt = some e := by
    rw [_check_inputs]
    rcases h with h | h | h
    · rw [if_neg (not_lt.mpr h)]
      exact ⟨_, rfl⟩
    · by_cases hA : 1 < a_min
      · rw [if_pos hA, if_neg (not_lt.mpr h)]
        exact ⟨_, rfl⟩
      · rw [if_neg hA]
        exact ⟨_, rfl⟩
    · by_cases hA : 1 < a_min
      · by_cases hB : a_min < a_max
        · rw [if_pos hA, if_pos hB, if_neg h]
          exact ⟨_, rfl⟩
        · rw [if_pos hA, if_neg hB]
          exact ⟨_, rfl⟩
      · rw [if_neg hA]
        exact ⟨_, rfl⟩
  obtain ⟨e, he⟩ := hck
  exact ⟨⟨e, by rw [uniformly_sample_space, he]⟩, ⟨e, by rw [run_mcmc, he]⟩⟩

/-- Witness for C8 at the spec's validation scenario
`uniform_sample(a_min=0.5, a_max=5, n_trials=10)`. -/
theorem C8_validation_rejects_witness :
    (∃ e, uniformly_sample_space estFresh (1/2) 5 (.int 10) = (estFresh, some e)) ∧
    (∃ e, run_mcmc estFresh uZero (1/2) 5 (.int 10) = (estFresh, some e)) :=
  C8_validation_rejects estFresh uZero (1/2) 5 (.int 10) (Or.inl (by norm_num))

/-- C9, counterexample.  The claim says `a_min` / `a_max` influence only
the seed drawn when no existing chain is supplied; but the code draws and
uses the seed on every call, so two runs that differ only in the ranges,
both resuming the same existing chain `[5]` with the same stream, produce
different chains (`[5, 2]` vs `[5, 6]`). -/
theorem C9_cex :
    metropolis_hastings [0] uRej 1 2 3 (some [5]) ≠
      metropolis_hastings [0] uRej 1 6 7 (some [5]) := by
  rw [mh_uRej, mh_uRej]
  show [(5 : ℝ), 2] ≠ [5, 6]
  simp only [ne_eq, List.cons.injEq, not_and]
  intro h
  norm_num

/-- C9, amended.  Every trial's proposal is `npUniform 1 10` of the next
unit draw — a value in `[1, 10)` for draws in `[0, 1)`, independent of
`a_min` / `a_max`; the ranges enter the run only through the seed
`npUniform a_min a_max (u 0)`, which is drawn on every call (even when an
existing chain is supplied). -/
theorem C9_fixed_proposal_range_amended :
    (∀ (data : List ℝ) (u : ℕ → ℝ) (n : ℕ) (a_min a_max : ℝ)
        (prior : Option (List ℝ)),
      metropolis_hastings data u n a_min a_max prior
        = mhFromSeed data u n (npUniform a_min a_max (u 0)) prior) ∧
    (∀ x : ℝ, 0 ≤ x → x < 1 → 1 ≤ npUniform 1 10 x ∧ npUniform 1 10 x < 10) := by
  constructor
  · intro data u n a_min a_max prior
    rfl
  · intro x h0 h1
    rw [npUniform]
    constructor <;> nlinarith

/-- Witness for C9's amended theorem at the all-zero stream. -/
theorem C9_fixed_proposal_range_amended_witness :
    metropolis_hastings [(0 : ℝ)] uZero 1 2 3 none
        = mhFromSeed [(0 : ℝ)] uZero 1 (npUniform 2 3 (uZero 0)) none ∧
    (1 ≤ npUniform 1 10 0 ∧ npUniform 1 10 0 < 10) :=
  ⟨C9_fixed_proposal_range_amended.1 [(0 : ℝ)] uZero 1 2 3 none,
   C9_fixed_proposal_range_amended.2 0 (le_refl 0) (by norm_num)⟩

/-- C10.  In a trial with `p_current > 0` whose proposal's posterior is at
least `p_current`, the acceptance ratio is `min 1 (p_trial / p_current) = 1`,
the accept/reject draw from `[0, 1)` is at most `1`, and the step accepts
the proposal unconditionally. -/
theorem C10_monotone_accept (data : List ℝ) (aTrial x : ℝ) (s : MHState)
    (hp : 0 < s.prob_a_current)
    (hge : s.prob_a_current ≤ calculate_posterior data aTrial)
    (hx0 : 0 ≤ x) (hx1 : x < 1) :
    min 1 (calculate_posterior data aTrial / s.prob_a_current) = 1 ∧
    npUniform 0 1 x ≤ 1 ∧
    mhStep data aTrial (npUniform 0 1 x) s =
      { a_current := aTrial
        prob_a_current := calculate_posterior data aTrial
        chain := s.chain ++ [aTrial] } := by
  have hr : (1 : ℝ) ≤ calculate_posterior data aTrial / s.prob_a_current :=
    (one_le_div hp).mpr hge
  have hmin : min 1 (calculate_posterior data aTrial / s.prob_a_current) = 1 :=
    min_eq_left hr
  have hux : npUniform 0 1 x = x := by
    rw [npUniform]; ring
  refine ⟨hmin, ?_, ?_⟩
  · rw [hux]; linarith
  · apply mhStep_accept
    rw [hmin, hux]; linarith

/-- Witness for C10: empty data (posterior constantly `1`), proposal `1`,
current posterior `1`, draw `0`. -/
theorem C10_monotone_accept_witness :
    min 1 (calculate_posterior [] 1 / 1) = 1 ∧
    npUniform 0 1 0 ≤ 1 ∧
    mhStep [] 1 (npUniform 0 1 0) ⟨2, 1, [2]⟩ =
      { a_current := 1
        prob_a_current := calculate_posterior [] 1
        chain := [2] ++ [1] } :=
  C10_monotone_accept [] 1 0 ⟨2, 1, [2]⟩ one_pos
    (by simp [calculate_posterior]) (le_refl 0) one_pos

end
